import Mathlib

/-!
Shallow embedding of the analytical core of `app.py` (groundwater well
assessment dashboard): coordinate filtering, per-well OLS trend estimation,
threshold trend classification, spatial aggregation, reconciliation
percentage change, and the map colour scale.  Dates are modelled as integer
day numbers, numeric values as rationals, missing values as `Option`.
-/

namespace WellsApp

/-- One raw row of the well-history table (`df_well_data` in `app.py`):
a station code, a measurement date (days since an arbitrary epoch, absent
when the date was unparseable) and a depth-to-water value. -/
structure WellRow where
  station : String
  date : Option ℤ
  level : Option ℚ
deriving Repr, DecidableEq

/-- A geographic point as loaded by `load_dga_water_rights` /
`load_census_points`: latitude and longitude, possibly missing. -/
structure GeoPoint where
  lat : Option ℚ
  lon : Option ℚ
deriving Repr, DecidableEq

/-- The coordinate test applied by the loaders: both coordinates present,
latitude within `[-56, -17]` and longitude within `[-76, -66]`
(`app.py` lines 744-747 and 785-788). -/
def validCoord (p : GeoPoint) : Bool :=
  match p.lat, p.lon with
  | some la, some lo =>
      decide (-56 ≤ la) && decide (la ≤ -17) && decide (-76 ≤ lo) && decide (lo ≤ -66)
  | _, _ => false

/-- The three successive filters of the loaders, in source order:
`dropna(subset=[Latitude, Longitude])`, then the latitude range filter,
then the longitude range filter. -/
def filter_valid_coordinates (l : List GeoPoint) : List GeoPoint :=
  let l1 := l.filter (fun p => p.lat.isSome && p.lon.isSome)
  let l2 := l1.filter (fun p =>
    match p.lat with
    | some la => decide (-56 ≤ la) && decide (la ≤ -17)
    | none => false)
  l2.filter (fun p =>
    match p.lon with
    | some lo => decide (-76 ≤ lo) && decide (lo ≤ -66)
    | none => false)

/-- The coarse 3-band trend category chosen inside
`create_well_time_series_with_regression` (`app.py` lines 1225-1242). -/
inductive TrendCategory where
  | declining
  | recovering
  | stable
deriving Repr, DecidableEq

/-- Coarse classification of a per-year slope (`app.py` lines 1225-1242):
`slope_per_year > 0.05` is declining, `slope_per_year < -0.05` is
recovering, anything else is stable. -/
def trend_status (slope_per_year : ℚ) : TrendCategory :=
  if slope_per_year > 0.05 then .declining
  else if slope_per_year < -0.05 then .recovering
  else .stable

/-- The five narrative interpretation bands of the well tab
(`app.py` lines 1898-1907). -/
inductive Interp where
  | criticalDecline
  | moderateDecline
  | slightDecline
  | stableLevel
  | recovery
deriving Repr, DecidableEq

/-- Fine 5-band interpretation of a per-year slope (`app.py` lines
1898-1907): the `if slope > 0.5 / elif slope > 0.1 / elif slope > 0 /
elif slope > -0.1 / else` cascade. -/
def interpretation (slope : ℚ) : Interp :=
  if slope > 0.5 then .criticalDecline
  else if slope > 0.1 then .moderateDecline
  else if slope > 0 then .slightDecline
  else if slope > -0.1 then .stableLevel
  else .recovery

/-- The map colour scale `get_color` of `create_well_map`
(`app.py` lines 933-942): a missing value is gray; otherwise the value is
normalised over `[min_val, max_val]` (with the normalisation fixed at `0.5`
when the range is empty) and mapped to blue / orange / red. -/
def get_color (value : Option ℚ) (min_val max_val : ℚ) : String :=
  match value with
  | none => "gray"
  | some v =>
      let norm : ℚ := if max_val ≠ min_val then (v - min_val) / (max_val - min_val) else 0.5
      if norm < 0.5 then "blue"
      else if norm < 0.7 then "orange"
      else "red"

/-- Outcome of `create_well_time_series_with_regression` (`app.py` lines
1174-1281): the explicit `return None, None, None, None` insufficient-data
path, the uncaught `ValueError` that `stats.linregress` raises when every
x value is identical, or the returned `(slope_per_year, r_squared, n)`
triple (the figure object is presentation only and is not modelled). -/
inductive TrendOutcome where
  | insufficientData
  | valueError
  | ok (slope_per_year r_squared : ℚ) (n : ℕ)
deriving Repr, DecidableEq

/-- Whether every entry of a list equals the first one — the
`x.max() == x.min()` degeneracy test of `scipy.stats.linregress`. -/
def allEqual (l : List ℚ) : Bool :=
  match l with
  | [] => true
  | a :: t => t.all (fun x => decide (x = a))

/-- Arithmetic mean of a list (`np.mean`); `0` on the empty list. -/
def mean (l : List ℚ) : ℚ := l.sum / l.length

/-- Bias-normalised variance of the x values, entry `ssxm` of
`np.cov(x, y, bias=1)` inside `scipy.stats.linregress`. -/
def ssxm (xs : List ℚ) : ℚ :=
  ((xs.map (fun x => (x - mean xs) ^ 2)).sum) / xs.length

/-- Bias-normalised covariance of x and y, entry `ssxym` of
`np.cov(x, y, bias=1)` inside `scipy.stats.linregress`. -/
def ssxym (xs ys : List ℚ) : ℚ :=
  ((List.zipWith (fun x y => (x - mean xs) * (y - mean ys)) xs ys).sum) / xs.length

/-- Bias-normalised variance of the y values, entry `ssym` of
`np.cov(x, y, bias=1)` inside `scipy.stats.linregress`. -/
def ssym (ys : List ℚ) : ℚ :=
  ((ys.map (fun y => (y - mean ys) ^ 2)).sum) / ys.length

/-- Shallow embedding of `scipy.stats.linregress` as called by the app:
`none` models the `ValueError` raised when all x values are identical;
otherwise it returns `(slope, intercept, r_squared)`, where
`slope = ssxym / ssxm`, `intercept = ymean - slope * xmean`, and the
correlation is `0` when `r_den = sqrt(ssxm * ssym)` is zero, so
`r_squared = ssxym^2 / (ssxm * ssym)` with a zero denominator giving `0`. -/
def linregress (xs ys : List ℚ) : Option (ℚ × ℚ × ℚ) :=
  if allEqual xs then none
  else some (ssxym xs ys / ssxm xs,
             mean ys - ssxym xs ys / ssxm xs * mean xs,
             if ssxm xs * ssym ys = 0 then 0 else ssxym xs ys ^ 2 / (ssxm xs * ssym ys))

/-- The rows of the history table for one station that carry both a date and
a depth value, in table order: the
`df_well_data[df_well_data['Station_Code'] == well_id]` selection followed by
`dropna(subset=['Date', 'Water_Level'])` (`app.py` lines 1177-1178). -/
def validSeries (rows : List WellRow) (well_id : String) : List (ℤ × ℚ) :=
  rows.filterMap (fun r =>
    if r.station = well_id then
      match r.date, r.level with
      | some d, some y => some (d, y)
      | _, _ => none
    else none)

/-- `df_well.sort_values('Date')` (`app.py` line 1179), modelled as a stable
insertion sort by date. -/
def sortByDate (pts : List (ℤ × ℚ)) : List (ℤ × ℚ) :=
  List.insertionSort (fun p q => p.1 ≤ q.1) pts

/-- `df_well['Date'].min()` (`app.py` line 1184): the earliest date of the
series; `0` on an empty series (never reached, the length guard fires
first). -/
def dateMin (pts : List (ℤ × ℚ)) : ℤ :=
  ((pts.map (fun p => p.1)).minimum).untop' 0

/-- The cleaned, date-sorted series for one well. -/
def trendPts (rows : List WellRow) (well_id : String) : List (ℤ × ℚ) :=
  sortByDate (validSeries rows well_id)

/-- `df_well['Days']` (`app.py` line 1184): elapsed days since the earliest
date, as rationals. -/
def trendXs (rows : List WellRow) (well_id : String) : List ℚ :=
  (trendPts rows well_id).map
    (fun p => ((p.1 - dateMin (trendPts rows well_id) : ℤ) : ℚ))

/-- `df_well['Water_Level']` for the cleaned, sorted series. -/
def trendYs (rows : List WellRow) (well_id : String) : List ℚ :=
  (trendPts rows well_id).map (fun p => p.2)

/-- The analytical core of `create_well_time_series_with_regression`
(`app.py` lines 1174-1281): select and clean the station's rows, bail out
with the explicit `None` result when fewer than 2 points remain, otherwise
regress depth on elapsed days and return
`(slope * 365.25, r_value ** 2, len(df_well))`. -/
def create_well_time_series_with_regression (rows : List WellRow)
    (well_id : String) : TrendOutcome :=
  if (trendPts rows well_id).length < 2 then .insufficientData
  else
    match linregress (trendXs rows well_id) (trendYs rows well_id) with
    | none => .valueError
    | some (slope, _intercept, r2) =>
        .ok (slope * 365.25) r2 (trendPts rows well_id).length

/-- Modelled from the spec: the ordinary-least-squares daily slope that
§4.2 describes — depth regressed on elapsed days since the series'
earliest date, as `Σ (x - x̄)(y - ȳ) / Σ (x - x̄)²` over the valid points.
This is the spec-side definition compared against the code's
covariance-based computation. -/
def specSlopeDaily (pts : List (ℤ × ℚ)) : ℚ :=
  let xs : List ℚ := pts.map (fun p => ((p.1 - dateMin pts : ℤ) : ℚ))
  let xb := mean xs
  let yb := mean (pts.map (fun p => p.2))
  ((pts.map (fun p => (((p.1 - dateMin pts : ℤ) : ℚ) - xb) * (p.2 - yb))).sum) /
    ((xs.map (fun x => (x - xb) ^ 2)).sum)

/-- One well row of the aggregated summary table (`df_wells` in
`generate_demo_data`), carrying one administrative key per granularity;
keys are optional because pandas grouping silently drops missing keys. -/
structure WellSummary where
  stationCode : String
  region : Option String
  comuna : Option String
  shac : Option String
  slope : Option ℚ
deriving Repr, DecidableEq

/-- `df_wells.groupby(key).agg({'Station_Code': 'count'})`
(`app.py` lines 865-884): one output row per distinct present key, with the
number of wells carrying that key.  Rows whose key is missing are dropped
(pandas `groupby` default); key order is first appearance (pandas sorts
keys, which only permutes the output rows). -/
def groupCounts {α : Type} (key : α → Option String) (ws : List α) :
    List (String × ℕ) :=
  ((ws.filterMap key).dedup).map
    (fun k => (k, (ws.filter (fun w => decide (key w = some k))).length))

/-- One admissible output order for `df.sort_values(metric, ascending=...)`
as used by the ranking views (`app.py` lines 2001-2018) and `nlargest`
(`app.py` line 1322): an insertion sort by the metric.  Pandas' default
`kind='quicksort'` guarantees only that the output is a permutation of the
rows ordered by the metric — the relative order of tied rows is
unspecified — so the sort is treated abstractly in
`ranking_selector_properties` (any metric-ordered permutation), and this
concrete instance is used only where tie order provably cannot matter:
on tables with pairwise-distinct metric values every metric-ordered
permutation, this one included, is the same list. -/
def rankingSort {α : Type} (descending : Bool) (key : α → ℚ) (l : List α) :
    List α :=
  if descending then List.insertionSort (fun a b => key b ≤ key a) l
  else List.insertionSort (fun a b => key a ≤ key b) l

/-- The ranking selector instantiated with the `rankingSort` order: sort by
the metric in the requested direction and truncate to the first `n` rows
(`sort_values(...).head(n)` / `nlargest(n, ...)`).  Used only on
distinct-metric tables, where it agrees with every admissible sort order
(see `ranking_selector_properties`). -/
def rankingSelect {α : Type} (descending : Bool) (key : α → ℚ) (n : ℕ)
    (l : List α) : List α :=
  (rankingSort descending key l).take n

/-- The truncation step of the ranking views — `head(n)` / the `nlargest`
row cap — applied to the table in whatever row order the sort returned. -/
def rankingSelectOf {α : Type} (sortedTable : List α) (n : ℕ) : List α :=
  sortedTable.take n

/-- Modelled from the spec: the reconciliation workbook read by
`load_census_data` (`app.py` lines 800-826) is produced outside `src/`, so
the percentage change is modelled from §4.5:
`pct_change_A_to_B = (CensusB_count − CensusA_count) ÷ CensusA_count × 100;
undefined (not computed) when CensusA_count = 0`. -/
def pct_change_A_to_B (censusA censusB : ℚ) : Option ℚ :=
  if censusA = 0 then none else some ((censusB - censusA) / censusA * 100)

end WellsApp

namespace WellsApp

/-- C5 helper fact: the three-step loader filter is one pass of `validCoord`. -/
theorem filter_valid_coordinates_eq (l : List GeoPoint) :
    filter_valid_coordinates l = l.filter validCoord := by
  unfold filter_valid_coordinates
  rw [List.filter_filter, List.filter_filter]
  apply List.filter_congr
  intro p _
  cases hla : p.lat <;> cases hlo : p.lon <;>
    simp [validCoord, hla, hlo, Bool.and_comm, Bool.and_assoc, Bool.and_left_comm]

/-- C3: under the coarse 3-band policy the category is declining exactly when
the slope exceeds `0.05`, recovering exactly when it is below `-0.05`, and
stable otherwise; both boundary values `0.05` and `-0.05` are stable, and
`0.05 + ε` is declining for every positive `ε`. -/
theorem coarse_classification_bands (s ε : ℚ) (hε : 0 < ε) :
    (trend_status s = .declining ↔ 0.05 < s) ∧
    (trend_status s = .recovering ↔ s < -0.05) ∧
    (trend_status s = .stable ↔ -0.05 ≤ s ∧ s ≤ 0.05) ∧
    trend_status 0.05 = .stable ∧
    trend_status (-0.05) = .stable ∧
    trend_status (0.05 + ε) = .declining ∧
    trend_status (-0.05 - ε) = .recovering := by
  unfold trend_status
  refine ⟨?_, ?_, ?_, by norm_num, by norm_num, ?_, ?_⟩
  · split_ifs with h1 h2 <;> simp_all <;> linarith
  · split_ifs with h1 h2 <;> simp_all <;> linarith
  · split_ifs with h1 h2 <;> simp_all <;> constructor <;> linarith
  · rw [if_pos (by linarith)]
  · rw [if_neg (by linarith), if_pos (by linarith)]

/-- C3 witness at `s = 0`, `ε = 1`. -/
theorem coarse_classification_bands_witness :
    (0 : ℚ) < 1 ∧ trend_status (0.05 + 1) = .declining :=
  ⟨by norm_num, (coarse_classification_bands 0 1 (by norm_num)).2.2.2.2.2.1⟩

/-- C4 counterexample: the claim says a slope of exactly `-0.1` is labelled
stable, but `interpretation (-0.1)` is recovery. -/
theorem fine_band_boundary_counterexample :
    interpretation (-0.1) = .recovery ∧ interpretation (-0.1) ≠ .stableLevel := by
  have h : interpretation (-0.1) = .recovery := by
    unfold interpretation
    norm_num
  refine ⟨h, ?_⟩
  rw [h]
  decide

/-- C4 (amended): the fine 5-band label is critical decline exactly when
`slope > 0.5`, moderate decline exactly when `0.1 < slope ≤ 0.5`, slight
decline exactly when `0 < slope ≤ 0.1`, stable exactly when
`-0.1 < slope ≤ 0`, and recovery exactly when `slope ≤ -0.1`; in particular
a slope of exactly `-0.1` is labelled recovery. -/
theorem fine_classification_bands (s : ℚ) :
    (interpretation s = .criticalDecline ↔ 0.5 < s) ∧
    (interpretation s = .moderateDecline ↔ 0.1 < s ∧ s ≤ 0.5) ∧
    (interpretation s = .slightDecline ↔ 0 < s ∧ s ≤ 0.1) ∧
    (interpretation s = .stableLevel ↔ -0.1 < s ∧ s ≤ 0) ∧
    (interpretation s = .recovery ↔ s ≤ -0.1) := by
  unfold interpretation
  refine ⟨?_, ?_, ?_, ?_, ?_⟩ <;>
    · split_ifs with h1 h2 h3 h4 <;> simp_all <;> first
        | linarith
        | (intro h; linarith)
        | (constructor <;> linarith)

/-- C5: a point passes the loaders' coordinate filter exactly when both
coordinates are present, the latitude is in `[-56, -17]` and the longitude
is in `[-76, -66]`; rejected points are dropped with no error, Santiago
`(-33.45, -70.65)` is kept, `(10, 10)` is dropped, and any point with a
missing coordinate is dropped. -/
theorem coordinate_filter_correct (l : List GeoPoint) (p q : GeoPoint)
    (hq : q.lat = none ∨ q.lon = none) :
    (p ∈ filter_valid_coordinates l ↔
      p ∈ l ∧ ∃ la lo, p.lat = some la ∧ p.lon = some lo ∧
        -56 ≤ la ∧ la ≤ -17 ∧ -76 ≤ lo ∧ lo ≤ -66) ∧
    validCoord ⟨some (-33.45), some (-70.65)⟩ = true ∧
    validCoord ⟨some 10, some 10⟩ = false ∧
    validCoord q = false := by
  refine ⟨?_, by norm_num [validCoord], by norm_num [validCoord], ?_⟩
  · rw [filter_valid_coordinates_eq, List.mem_filter]
    constructor
    · rintro ⟨hm, hv⟩
      refine ⟨hm, ?_⟩
      cases hla : p.lat with
      | none => rw [validCoord] at hv; rw [hla] at hv; simp at hv
      | some la =>
        cases hlo : p.lon with
        | none => rw [validCoord] at hv; rw [hla, hlo] at hv; simp at hv
        | some lo =>
          rw [validCoord] at hv; rw [hla, hlo] at hv
          simp only [Bool.and_eq_true, decide_eq_true_eq] at hv
          exact ⟨la, lo, rfl, rfl, hv.1.1.1, hv.1.1.2, hv.1.2, hv.2⟩
    · rintro ⟨hm, la, lo, hla, hlo, h1, h2, h3, h4⟩
      refine ⟨hm, ?_⟩
      rw [validCoord, hla, hlo]
      simp only [Bool.and_eq_true, decide_eq_true_eq]
      exact ⟨⟨⟨h1, h2⟩, h3⟩, h4⟩
  · rcases hq with h | h
    · rw [validCoord, h]
    · rw [validCoord, h]
      cases q.lat <;> rfl

/-- C5 witness: concrete list, point, and missing-coordinate point. -/
theorem coordinate_filter_correct_witness :
    ((⟨some (-33.45), some (-70.65)⟩ : GeoPoint) ∈
        filter_valid_coordinates [⟨some (-33.45), some (-70.65)⟩, ⟨some 10, some 10⟩] ↔
      (⟨some (-33.45), some (-70.65)⟩ : GeoPoint) ∈
          ([⟨some (-33.45), some (-70.65)⟩, ⟨some 10, some 10⟩] : List GeoPoint) ∧
        ∃ la lo, (some (-33.45) : Option ℚ) = some la ∧ (some (-70.65) : Option ℚ) = some lo ∧
          -56 ≤ la ∧ la ≤ -17 ∧ -76 ≤ lo ∧ lo ≤ -66) ∧
    validCoord ⟨some (-33.45), some (-70.65)⟩ = true ∧
    validCoord ⟨some 10, some 10⟩ = false ∧
    validCoord ⟨none, some 0⟩ = false :=
  coordinate_filter_correct
    [⟨some (-33.45), some (-70.65)⟩, ⟨some 10, some 10⟩]
    ⟨some (-33.45), some (-70.65)⟩ ⟨none, some 0⟩ (Or.inl rfl)

/-- C10: the map colour scale is total — for EVERY value and EVERY
`min_val`/`max_val` range it yields one of gray, blue, orange or red; a
missing value is always gray; and when the range is empty
(`min_val = max_val`) the normalisation is pinned at `0.5`, which colours
every present value orange. -/
theorem get_color_total (v : Option ℚ) (mn mx : ℚ) (q : ℚ) :
    (get_color v mn mx = "gray" ∨ get_color v mn mx = "blue" ∨
      get_color v mn mx = "orange" ∨ get_color v mn mx = "red") ∧
    get_color none mn mx = "gray" ∧
    (mn = mx → get_color (some q) mn mx = "orange") := by
  refine ⟨?_, rfl, ?_⟩
  · cases v with
    | none => left; rfl
    | some w =>
      rw [get_color]
      split_ifs <;> simp
  · intro heq
    subst heq
    norm_num [get_color]

/-- `allEqual` holds exactly when any two entries agree. -/
theorem allEqual_true_iff (l : List ℚ) :
    allEqual l = true ↔ ∀ a ∈ l, ∀ b ∈ l, a = b := by
  cases l with
  | nil => simp [allEqual]
  | cons a t =>
    simp only [allEqual, List.all_eq_true, decide_eq_true_eq]
    constructor
    · intro h x hx y hy
      have hx2 : x = a ∨ x ∈ t := List.mem_cons.mp hx
      have hy2 : y = a ∨ y ∈ t := List.mem_cons.mp hy
      rcases hx2 with hxa | hxt <;> rcases hy2 with hya | hyt
      · rw [hxa, hya]
      · rw [hxa, h y hyt]
      · rw [h x hxt, hya]
      · rw [h x hxt, h y hyt]
    · intro h x hx
      exact h x (List.mem_cons_of_mem a hx) a (List.mem_cons_self a t)

/-- A list with two distinct members has length at least 2. -/
theorem two_le_length_of_mem_ne {α : Type} {l : List α} {p q : α}
    (hp : p ∈ l) (hq : q ∈ l) (hne : p ≠ q) : 2 ≤ l.length := by
  cases l with
  | nil => simp at hp
  | cons a t =>
    cases t with
    | nil =>
      simp only [List.mem_singleton] at hp hq
      exact absurd (hp.trans hq.symm) hne
    | cons b u =>
      simp only [List.length_cons]
      omega

/-- `List.minimum` only depends on the multiset of entries. -/
theorem minimum_perm {l₁ l₂ : List ℤ} (h : l₁.Perm l₂) :
    l₁.minimum = l₂.minimum := by
  cases h1 : l₁.minimum with
  | top =>
    have h2 : l₁ = [] := List.minimum_eq_top.mp h1
    subst h2
    rw [← h.nil_eq]
    rfl
  | coe m =>
    rw [List.minimum_eq_coe_iff] at h1
    have h3 : l₂.minimum = ↑m := List.minimum_eq_coe_iff.mpr
      ⟨h.mem_iff.mp h1.1, fun a ha => h1.2 a (h.mem_iff.mpr ha)⟩
    rw [h3]

/-- Sum of an affine image of a list. -/
theorem sum_map_affine (l : List ℚ) (c s : ℚ) :
    (l.map (fun x => c + s * x)).sum = l.length * c + s * l.sum := by
  induction l with
  | nil => simp
  | cons a t ih =>
    simp only [List.map_cons, List.sum_cons, ih, List.length_cons]
    push_cast
    ring

/-- Mean of an affine image of a nonempty list. -/
theorem mean_map_affine (l : List ℚ) (c s : ℚ) (hl : l ≠ []) :
    mean (l.map (fun x => c + s * x)) = c + s * mean l := by
  have h1 : l.length ≠ 0 := fun h => hl (List.length_eq_zero.mp h)
  have hn : (l.length : ℚ) ≠ 0 := Nat.cast_ne_zero.mpr h1
  rw [mean, mean, List.length_map, sum_map_affine]
  field_simp
  ring

/-- A sum of squared deviations with one nonvanishing term is positive. -/
theorem sum_sq_dev_pos (l : List ℚ) (m a : ℚ) (ha : a ∈ l) (hne : a ≠ m) :
    0 < (l.map (fun x => (x - m) ^ 2)).sum := by
  have h0 : ∀ y ∈ l.map (fun x => (x - m) ^ 2), 0 ≤ y := by
    intro y hy
    rcases List.mem_map.mp hy with ⟨x, _, rfl⟩
    positivity
  have hmem : (a - m) ^ 2 ∈ l.map (fun x => (x - m) ^ 2) :=
    List.mem_map_of_mem _ ha
  have hsub : a - m ≠ 0 := sub_ne_zero.mpr hne
  have hpos : 0 < (a - m) ^ 2 := by positivity
  exact lt_of_lt_of_le hpos (List.single_le_sum h0 _ hmem)

/-- A list with two distinct entries has an entry different from any given
value. -/
theorem exists_mem_ne {l : List ℚ} {a b : ℚ} (ha : a ∈ l) (hb : b ∈ l)
    (hab : a ≠ b) (m : ℚ) : ∃ x ∈ l, x ≠ m := by
  by_cases h : a = m
  · refine ⟨b, hb, fun hbm => hab ?_⟩
    rw [h, hbm]
  · exact ⟨a, ha, h⟩

/-- The variance entry `ssxm` is positive when the x values are not all
identical. -/
theorem ssxm_pos {xs : List ℚ} {a b : ℚ} (ha : a ∈ xs) (hb : b ∈ xs)
    (hab : a ≠ b) : 0 < ssxm xs := by
  obtain ⟨x, hx, hxm⟩ := exists_mem_ne ha hb hab (mean xs)
  have hnum := sum_sq_dev_pos xs (mean xs) x hx hxm
  have hlen : (0 : ℚ) < xs.length := by
    have hne : xs ≠ [] := by rintro rfl; simp at ha
    exact_mod_cast List.length_pos.mpr hne
  exact div_pos hnum hlen

/-- On points lying exactly on `y = c + s * x`, the covariance is `s` times
the x variance and the y variance is `s²` times it. -/
theorem cov_on_line (xs : List ℚ) (c s : ℚ) (hl : xs ≠ []) :
    ssxym xs (xs.map (fun x => c + s * x)) = s * ssxm xs ∧
    ssym (xs.map (fun x => c + s * x)) = s ^ 2 * ssxm xs := by
  have hmean : mean (xs.map (fun x => c + s * x)) = c + s * mean xs :=
    mean_map_affine xs c s hl
  constructor
  · rw [ssxym, ssxm, hmean]
    have hz : List.zipWith (fun x y => (x - mean xs) * (y - (c + s * mean xs)))
        xs (xs.map (fun x => c + s * x)) =
        xs.map (fun x => s * ((x - mean xs) ^ 2)) := by
      have h1 := List.zipWith_map
        (fun x y => (x - mean xs) * (y - (c + s * mean xs)))
        (id : ℚ → ℚ) (fun x : ℚ => c + s * x) xs xs
      rw [List.map_id] at h1
      rw [h1, List.zipWith_same]
      exact List.map_congr_left (fun x _ => by simp only [id]; ring)
    rw [hz, List.sum_map_mul_left, mul_div_assoc]
  · rw [ssym, ssxm, hmean, List.map_map, List.length_map]
    have hz : (fun y => (y - (c + s * mean xs)) ^ 2) ∘ (fun x => c + s * x) =
        fun x => s ^ 2 * ((x - mean xs) ^ 2) := by
      funext x
      simp only [Function.comp_apply]
      ring
    rw [hz, List.sum_map_mul_left, mul_div_assoc]

/-- `scipy.stats.linregress` on points lying exactly on the line
`y = c + s * x` with at least two distinct x values and `s ≠ 0` returns
slope `s`, intercept `c` and `r_squared = 1`. -/
theorem linregress_on_line (xs : List ℚ) (c s : ℚ) (hs : s ≠ 0)
    {a b : ℚ} (ha : a ∈ xs) (hb : b ∈ xs) (hab : a ≠ b) :
    linregress xs (xs.map (fun x => c + s * x)) = some (s, c, 1) := by
  have hl : xs ≠ [] := by rintro rfl; simp at ha
  have hx : 0 < ssxm xs := ssxm_pos ha hb hab
  have hssxm : ssxm xs ≠ 0 := ne_of_gt hx
  obtain ⟨h1, h2⟩ := cov_on_line xs c s hl
  have hmean : mean (xs.map (fun x => c + s * x)) = c + s * mean xs :=
    mean_map_affine xs c s hl
  have hAll : ¬ allEqual xs = true :=
    fun h => hab ((allEqual_true_iff xs).mp h a ha b hb)
  have hden : ssxm xs * ssym (xs.map (fun x => c + s * x)) ≠ 0 := by
    rw [h2]
    have : 0 < s ^ 2 * ssxm xs := by positivity
    exact mul_ne_zero hssxm (ne_of_gt this)
  rw [linregress, if_neg hAll, h1, hmean, if_neg hden, h2]
  have hslope : s * ssxm xs / ssxm xs = s := by
    rw [mul_div_assoc, div_self hssxm, mul_one]
  rw [hslope]
  have hint : c + s * mean xs - s * mean xs = c := by ring
  have hr2 : (s * ssxm xs) ^ 2 / (ssxm xs * (s ^ 2 * ssxm xs)) = 1 := by
    field_simp
    ring
  rw [hint, hr2]

/-- Mean is invariant under permutation. -/
theorem mean_perm {l₁ l₂ : List ℚ} (h : l₁.Perm l₂) : mean l₁ = mean l₂ := by
  rw [mean, mean, h.sum_eq, h.length_eq]

/-- `ssxym` over two images of the same point list collapses to one map. -/
theorem ssxym_map (P : List (ℤ × ℚ)) (F G : (ℤ × ℚ) → ℚ) :
    ssxym (P.map F) (P.map G) =
      (P.map (fun p => (F p - mean (P.map F)) * (G p - mean (P.map G)))).sum /
        P.length := by
  rw [ssxym, List.zipWith_map _ F G P P, List.zipWith_same, List.length_map]

/-- `ssxm` over an image of a point list collapses to one map. -/
theorem ssxm_map (P : List (ℤ × ℚ)) (F : (ℤ × ℚ) → ℚ) :
    ssxm (P.map F) =
      (P.map (fun p => (F p - mean (P.map F)) ^ 2)).sum / P.length := by
  rw [ssxm, List.map_map, List.length_map]
  rfl

/-- When the length guard passes and the x values are not all identical, the
estimator returns the computed per-year slope, R² and point count. -/
theorem create_eq_ok (rows : List WellRow) (well_id : String)
    (h2 : ¬ (trendPts rows well_id).length < 2)
    (hne : allEqual (trendXs rows well_id) = false) :
    create_well_time_series_with_regression rows well_id =
      .ok (ssxym (trendXs rows well_id) (trendYs rows well_id) /
            ssxm (trendXs rows well_id) * 365.25)
        (if ssxm (trendXs rows well_id) * ssym (trendYs rows well_id) = 0 then 0
         else ssxym (trendXs rows well_id) (trendYs rows well_id) ^ 2 /
           (ssxm (trendXs rows well_id) * ssym (trendYs rows well_id)))
        (trendPts rows well_id).length := by
  rw [create_well_time_series_with_regression, if_neg h2, linregress,
    if_neg (by simp [hne])]

/-- C2: with fewer than 2 valid points (0 or 1), the estimator returns the
explicit insufficient-data result, and in particular never a zero-slope
`ok` result. -/
theorem insufficient_data_contract (rows : List WellRow) (well_id : String)
    (h : (validSeries rows well_id).length < 2) :
    create_well_time_series_with_regression rows well_id = .insufficientData ∧
    ∀ s r2 n, create_well_time_series_with_regression rows well_id ≠ .ok s r2 n := by
  have hlen : (trendPts rows well_id).length < 2 := by
    rw [trendPts, sortByDate, List.length_insertionSort]
    exact h
  have heq : create_well_time_series_with_regression rows well_id = .insufficientData := by
    rw [create_well_time_series_with_regression, if_pos hlen]
  exact ⟨heq, fun s r2 n hc => by rw [heq] at hc; exact TrendOutcome.noConfusion hc⟩

/-- C2 witness: a single-point series. -/
theorem insufficient_data_contract_witness :
    create_well_time_series_with_regression [⟨"w", some 10, some 3⟩] "w" =
        .insufficientData ∧
    ∀ s r2 n,
      create_well_time_series_with_regression [⟨"w", some 10, some 3⟩] "w" ≠
        .ok s r2 n :=
  insufficient_data_contract [⟨"w", some 10, some 3⟩] "w" (by decide)

/-- C6: for a series of 2 points on the same calendar date the length guard
passes (2 valid points), but `linregress` is then called with identical x
values, which raises an uncaught `ValueError` instead of producing the
explicit undefined result — the code does not detect the degenerate
regression. -/
theorem same_date_regression_raises :
    (validSeries [⟨"w", some 100, some 5⟩, ⟨"w", some 100, some 7⟩] "w").length = 2 ∧
    create_well_time_series_with_regression
        [⟨"w", some 100, some 5⟩, ⟨"w", some 100, some 7⟩] "w" = .valueError ∧
    create_well_time_series_with_regression
        [⟨"w", some 100, some 5⟩, ⟨"w", some 100, some 7⟩] "w" ≠ .insufficientData := by
  refine ⟨by decide, by decide, by decide⟩

/-- C1 counterexample: two points lying exactly on the horizontal line
`depth = 5` (daily slope `0`); the estimator returns slope `0` with
`R² = 0`, not the `R² = 1` the claim asserts for points lying exactly on a
line. -/
theorem regression_r2_counterexample :
    create_well_time_series_with_regression
        [⟨"w", some 0, some 5⟩, ⟨"w", some 1, some 5⟩] "w" = .ok 0 0 2 ∧
    (0 : ℚ) ≠ 1 := by
  constructor
  · norm_num [create_well_time_series_with_regression, trendPts, validSeries, sortByDate,
      trendXs, trendYs, dateMin, linregress, allEqual, mean, ssxm, ssxym, ssym,
      List.insertionSort, List.orderedInsert, List.filterMap, List.min?]
  · norm_num

/-- C1 (amended): with two valid points on distinct dates the estimator
returns the ordinary-least-squares daily slope of depth against elapsed
days multiplied by 365.25, together with an R² value and the number of
valid points; and for points lying exactly on a line of NONZERO daily
slope `s` the returned slope is exactly `s * 365.25` with R² exactly 1
(for a horizontal line the code instead returns R² = 0, see the
counterexample). -/
theorem regression_correctness (rows : List WellRow) (well_id : String)
    (c s : ℚ)
    (hdates : ∃ p ∈ validSeries rows well_id, ∃ q ∈ validSeries rows well_id,
      p.1 ≠ q.1) :
    (∃ r2 : ℚ, create_well_time_series_with_regression rows well_id =
        .ok (specSlopeDaily (validSeries rows well_id) * 365.25) r2
          (validSeries rows well_id).length) ∧
    (s ≠ 0 → (∀ p ∈ validSeries rows well_id, p.2 = c + s * (p.1 : ℚ)) →
      create_well_time_series_with_regression rows well_id =
        .ok (s * 365.25) 1 (validSeries rows well_id).length) := by
  obtain ⟨p, hp, q, hq, hpq⟩ := hdates
  have hperm : (trendPts rows well_id).Perm (validSeries rows well_id) :=
    List.perm_insertionSort _ _
  have hd0 : dateMin (trendPts rows well_id) =
      dateMin (validSeries rows well_id) := by
    rw [dateMin, dateMin, minimum_perm (hperm.map _)]
  have hplen : (trendPts rows well_id).length =
      (validSeries rows well_id).length := hperm.length_eq
  have hp2 : p ∈ trendPts rows well_id := hperm.mem_iff.mpr hp
  have hq2 : q ∈ trendPts rows well_id := hperm.mem_iff.mpr hq
  have hxs : trendXs rows well_id = (trendPts rows well_id).map
      (fun r => ((r.1 - dateMin (validSeries rows well_id) : ℤ) : ℚ)) := by
    rw [trendXs, hd0]
  have hys : trendYs rows well_id =
      (trendPts rows well_id).map (fun r => r.2) := rfl
  have hFpq : ((p.1 - dateMin (validSeries rows well_id) : ℤ) : ℚ) ≠
      ((q.1 - dateMin (validSeries rows well_id) : ℤ) : ℚ) := by
    intro h
    apply hpq
    have h2 : p.1 - dateMin (validSeries rows well_id) =
        q.1 - dateMin (validSeries rows well_id) := by exact_mod_cast h
    omega
  have hpa : ((p.1 - dateMin (validSeries rows well_id) : ℤ) : ℚ) ∈
      trendXs rows well_id := by
    rw [hxs]; exact List.mem_map_of_mem _ hp2
  have hqa : ((q.1 - dateMin (validSeries rows well_id) : ℤ) : ℚ) ∈
      trendXs rows well_id := by
    rw [hxs]; exact List.mem_map_of_mem _ hq2
  have hAllF : allEqual (trendXs rows well_id) = false := by
    rw [Bool.eq_false_iff]
    intro h
    exact hFpq ((allEqual_true_iff _).mp h _ hpa _ hqa)
  have hlen2 : ¬ (trendPts rows well_id).length < 2 := by
    rw [hplen]
    have h2 := two_le_length_of_mem_ne hp hq (fun h => hpq (by rw [h]))
    omega
  have hn : ((validSeries rows well_id).length : ℚ) ≠ 0 := by
    have h2 := two_le_length_of_mem_ne hp hq (fun h => hpq (by rw [h]))
    have h3 : (validSeries rows well_id).length ≠ 0 := by omega
    exact_mod_cast h3
  constructor
  · -- the code's covariance computation equals the spec's raw-sum OLS slope
    have hslope : ssxym (trendXs rows well_id) (trendYs rows well_id) /
        ssxm (trendXs rows well_id) =
        specSlopeDaily (validSeries rows well_id) := by
      rw [hxs, hys, ssxym_map, ssxm_map]
      rw [mean_perm (hperm.map
        (fun r => ((r.1 - dateMin (validSeries rows well_id) : ℤ) : ℚ)))]
      rw [mean_perm (hperm.map (fun r => r.2))]
      rw [(hperm.map _).sum_eq, (hperm.map _).sum_eq, hplen]
      rw [specSlopeDaily]
      rw [List.map_map]
      rw [div_div_div_comm, div_self hn, div_one]
      rfl
    exact ⟨_, by rw [create_eq_ok rows well_id hlen2 hAllF, hplen, hslope]⟩
  · intro hs hline
    have hys2 : trendYs rows well_id = (trendXs rows well_id).map
        (fun x => (c + s * (dateMin (validSeries rows well_id) : ℚ)) + s * x) := by
      rw [hys, hxs, List.map_map]
      apply List.map_congr_left
      intro r hr
      simp only [Function.comp_apply]
      rw [hline r (hperm.mem_iff.mp hr)]
      push_cast
      ring
    have hlin := linregress_on_line (trendXs rows well_id)
      (c + s * (dateMin (validSeries rows well_id) : ℚ)) s hs hpa hqa hFpq
    rw [← hys2] at hlin
    rw [create_well_time_series_with_regression, if_neg hlen2, hlin, hplen]

/-- C1 witness: two points on the line `depth = 5 + 1 × day`. -/
theorem regression_correctness_witness :
    create_well_time_series_with_regression
        [⟨"w", some 0, some 5⟩, ⟨"w", some 1, some 6⟩] "w" =
      .ok (1 * 365.25) 1
        (validSeries [⟨"w", some 0, some 5⟩, ⟨"w", some 1, some 6⟩] "w").length :=
  (regression_correctness [⟨"w", some 0, some 5⟩, ⟨"w", some 1, some 6⟩] "w" 5 1
      (by decide)).2 (by norm_num)
    (by
      intro r hr
      fin_cases hr <;> norm_num)

/-- The per-group row count is the multiplicity of the key among the
present keys. -/
theorem filter_length_eq_count {α : Type} (key : α → Option String)
    (ws : List α) (k : String) :
    (ws.filter (fun w => decide (key w = some k))).length =
      (ws.filterMap key).count k := by
  induction ws with
  | nil => rfl
  | cons a t ih =>
    cases ha : key a with
    | none =>
      simp only [List.filter_cons, List.filterMap_cons, ha]
      simp only [Option.some.injEq] at *
      simp [ih]
    | some k2 =>
      by_cases hk : k2 = k
      · subst hk
        simp [List.filter_cons, List.filterMap_cons, ha, List.count_cons, ih]
      · simp [List.filter_cons, List.filterMap_cons, ha, List.count_cons, hk, ih]

/-- C7: for every well population and every grouping key, the per-unit well
counts of the spatial aggregation sum to the number of wells with a present
key at that granularity, and no emitted group has zero wells. -/
theorem aggregation_additivity {α : Type} (key : α → Option String)
    (ws : List α) (kc : String × ℕ) (hkc : kc ∈ groupCounts key ws) :
    (((groupCounts key ws).map Prod.snd).sum = (ws.filterMap key).length) ∧
    0 < kc.2 := by
  constructor
  · rw [groupCounts, List.map_map]
    have h1 : (Prod.snd ∘ fun k =>
        (k, (ws.filter (fun w => decide (key w = some k))).length)) =
        fun k => (ws.filterMap key).count k := by
      funext k
      exact filter_length_eq_count key ws k
    rw [h1]
    exact List.sum_map_count_dedup_eq_length (ws.filterMap key)
  · rw [groupCounts] at hkc
    rcases List.mem_map.mp hkc with ⟨k, hk, rfl⟩
    have hk2 : k ∈ ws.filterMap key := (List.mem_dedup).mp hk
    rcases List.mem_filterMap.mp hk2 with ⟨a, ha, hka⟩
    have hmem : a ∈ ws.filter (fun w => decide (key w = some k)) :=
      List.mem_filter.mpr ⟨ha, by simp [hka]⟩
    simp only []
    exact List.length_pos.mpr (fun hnil => by rw [hnil] at hmem; simp at hmem)

/-- C7 witness: three wells, two regions, one missing key. -/
theorem aggregation_additivity_witness :
    ((((groupCounts WellSummary.region
      [⟨"a", some "RM", none, none, none⟩,
       ⟨"b", some "RM", none, none, none⟩,
       ⟨"c", none, none, none, none⟩]).map Prod.snd).sum =
      ([⟨"a", some "RM", none, none, none⟩,
        ⟨"b", some "RM", none, none, none⟩,
        ⟨"c", none, none, none, none⟩].filterMap WellSummary.region).length) ∧
      0 < (("RM", 2) : String × ℕ).2) :=
  aggregation_additivity WellSummary.region
    [⟨"a", some "RM", none, none, none⟩,
     ⟨"b", some "RM", none, none, none⟩,
     ⟨"c", none, none, none, none⟩] ("RM", 2) (by decide)

/-- C9: the reconciliation percentage change is
`(CensusB − CensusA) / CensusA × 100` whenever `CensusA ≠ 0`, and is an
explicit `none` — no division error, no infinity — when `CensusA = 0`. -/
theorem pct_change_contract (a b : ℚ) (ha : a ≠ 0) :
    pct_change_A_to_B a b = some ((b - a) / a * 100) ∧
    pct_change_A_to_B 0 b = none ∧
    ∀ v, pct_change_A_to_B a b = some v → v = (b - a) / a * 100 := by
  refine ⟨?_, ?_, ?_⟩
  · rw [pct_change_A_to_B, if_neg ha]
  · rw [pct_change_A_to_B, if_pos rfl]
  · intro v hv
    rw [pct_change_A_to_B, if_neg ha] at hv
    exact (Option.some.injEq _ _ ▸ hv).symm

/-- C9 witness: 100 → 150 is a 50% increase, and a zero base is undefined. -/
theorem pct_change_contract_witness :
    pct_change_A_to_B 100 150 = some ((150 - 100) / 100 * 100) ∧
    pct_change_A_to_B 0 150 = none ∧
    ∀ v, pct_change_A_to_B 100 150 = some v → v = (150 - 100) / 100 * 100 :=
  pct_change_contract 100 150 (by norm_num)

/-- C8 counterexample: on the table `[1, 2, 3]` with limit 2, reversing the
direction changes which rows are selected (3 is selected descending but not
ascending), so reversal does not merely reverse the order of the selected
metric.  The metric values are pairwise distinct, so every metric-ordered
permutation — pandas' quicksort output included — coincides with the
`rankingSelect` instance evaluated here (`ranking_selector_properties`). -/
theorem ranking_reversal_counterexample :
    rankingSelect true (fun x : ℚ => x) 2 [1, 2, 3] = [3, 2] ∧
    rankingSelect false (fun x : ℚ => x) 2 [1, 2, 3] = [1, 2] ∧
    (3 : ℚ) ∈ rankingSelect true (fun x : ℚ => x) 2 [1, 2, 3] ∧
    (3 : ℚ) ∉ rankingSelect false (fun x : ℚ => x) 2 [1, 2, 3] ∧
    ((rankingSelect false (fun x : ℚ => x) 2 [1, 2, 3]).map
        (fun x : ℚ => x)).reverse ≠
      (rankingSelect true (fun x : ℚ => x) 2 [1, 2, 3]).map (fun x : ℚ => x) := by
  refine ⟨by decide, by decide, by decide, by decide, by decide⟩

/-- Two descending metric-ordered permutations of the same table with
pairwise-distinct metric values are equal. -/
theorem sorted_perm_unique {α : Type} (key : α → ℚ) {l S C : List α}
    (hpS : S.Perm l) (hpC : C.Perm l)
    (hsS : S.Pairwise (fun a b => key b ≤ key a))
    (hsC : C.Pairwise (fun a b => key b ≤ key a))
    (hdist : (l.map key).Pairwise (fun a b => a ≠ b)) : S = C := by
  have hneS : S.Pairwise (fun a b => key a ≠ key b) :=
    List.pairwise_map.mp (((hpS.map key).pairwise_iff (fun h => Ne.symm h)).mpr hdist)
  have hneC : C.Pairwise (fun a b => key a ≠ key b) :=
    List.pairwise_map.mp (((hpC.map key).pairwise_iff (fun h => Ne.symm h)).mpr hdist)
  have hstrictS : S.Pairwise (fun a b => key b < key a) :=
    (hsS.and hneS).imp (fun h => lt_of_le_of_ne h.1 (Ne.symm h.2))
  have hstrictC : C.Pairwise (fun a b => key b < key a) :=
    (hsC.and hneC).imp (fun h => lt_of_le_of_ne h.1 (Ne.symm h.2))
  haveI : IsAntisymm α (fun a b => key b < key a) :=
    ⟨fun a b h1 h2 => absurd (h1.trans h2) (lt_irrefl _)⟩
  exact List.eq_of_perm_of_sorted (hpS.trans hpC.symm) hstrictS hstrictC

/-- Two ascending metric-ordered permutations of the same table with
pairwise-distinct metric values are equal. -/
theorem sorted_perm_unique_asc {α : Type} (key : α → ℚ) {l S C : List α}
    (hpS : S.Perm l) (hpC : C.Perm l)
    (hsS : S.Pairwise (fun a b => key a ≤ key b))
    (hsC : C.Pairwise (fun a b => key a ≤ key b))
    (hdist : (l.map key).Pairwise (fun a b => a ≠ b)) : S = C := by
  have hneS : S.Pairwise (fun a b => key a ≠ key b) :=
    List.pairwise_map.mp (((hpS.map key).pairwise_iff (fun h => Ne.symm h)).mpr hdist)
  have hneC : C.Pairwise (fun a b => key a ≠ key b) :=
    List.pairwise_map.mp (((hpC.map key).pairwise_iff (fun h => Ne.symm h)).mpr hdist)
  have hstrictS : S.Pairwise (fun a b => key a < key b) :=
    (hsS.and hneS).imp (fun h => lt_of_le_of_ne h.1 h.2)
  have hstrictC : C.Pairwise (fun a b => key a < key b) :=
    (hsC.and hneC).imp (fun h => lt_of_le_of_ne h.1 h.2)
  haveI : IsAntisymm α (fun a b => key a < key b) :=
    ⟨fun a b h1 h2 => absurd (h1.trans h2) (lt_irrefl _)⟩
  exact List.eq_of_perm_of_sorted (hpS.trans hpC.symm) hstrictS hstrictC

/-- C8 (amended): pandas' default quicksort guarantees only that
`sort_values` returns SOME permutation of the rows ordered by the metric in
the requested direction — the relative order of tied rows is unspecified.
For ANY such metric-ordered permutations `S` (descending) and `T`
(ascending) of the table, truncation to the first `n` rows satisfies: the
output has `min n (number of rows)` rows; its metric values are sorted in
the requested direction; every selected row comes from the input; when the
metric values are pairwise distinct the sorted order is unique — every
admissible sort output, hence the selector's output, equals the concrete
`rankingSelect` instance, so repeated runs with the same parameters give
identical output; and when `n` covers the whole table, reversing the
direction exactly reverses the sequence of metric values without changing
which rows are selected.  Under truncation, reversing the direction changes
membership (see the counterexample). -/
theorem ranking_selector_properties {α : Type} (key : α → ℚ) (l S T : List α)
    (n : ℕ)
    (hpD : S.Perm l) (hsD : S.Pairwise (fun a b => key b ≤ key a))
    (hpA : T.Perm l) (hsA : T.Pairwise (fun a b => key a ≤ key b)) :
    (rankingSelectOf S n).length = min n l.length ∧
    ((rankingSelectOf S n).map key).Pairwise (fun a b => b ≤ a) ∧
    ((rankingSelectOf T n).map key).Pairwise (fun a b => a ≤ b) ∧
    (∀ x ∈ rankingSelectOf S n, x ∈ l) ∧
    (∀ x ∈ rankingSelectOf T n, x ∈ l) ∧
    ((l.map key).Pairwise (fun a b => a ≠ b) →
      rankingSelectOf S n = rankingSelect true key n l ∧
      rankingSelectOf T n = rankingSelect false key n l) ∧
    (l.length ≤ n →
      ((rankingSelectOf T n).map key).reverse = (rankingSelectOf S n).map key) ∧
    (l.length ≤ n →
      ∀ x, x ∈ rankingSelectOf S n ↔ x ∈ rankingSelectOf T n) := by
  haveI : IsTotal α (fun a b => key b ≤ key a) :=
    ⟨fun a b => le_total (key b) (key a)⟩
  haveI : IsTrans α (fun a b => key b ≤ key a) :=
    ⟨fun a b c h1 h2 => le_trans h2 h1⟩
  haveI : IsTotal α (fun a b => key a ≤ key b) :=
    ⟨fun a b => le_total (key a) (key b)⟩
  haveI : IsTrans α (fun a b => key a ≤ key b) :=
    ⟨fun a b c h1 h2 => le_trans h1 h2⟩
  have hlenS : S.length = l.length := hpD.length_eq
  have hlenT : T.length = l.length := hpA.length_eq
  have htD := hsD.sublist (List.take_sublist n S)
  have htA := hsA.sublist (List.take_sublist n T)
  refine ⟨?_, ?_, ?_, ?_, ?_, ?_, ?_, ?_⟩
  · rw [rankingSelectOf, List.length_take, hlenS]
  · exact List.pairwise_map.mpr htD
  · exact List.pairwise_map.mpr htA
  · intro x hx
    exact hpD.subset (List.take_subset n S hx)
  · intro x hx
    exact hpA.subset (List.take_subset n T hx)
  · intro hdist
    constructor
    · have hC : S = List.insertionSort (fun a b => key b ≤ key a) l :=
        sorted_perm_unique key hpD (List.perm_insertionSort _ l) hsD
          (List.sorted_insertionSort _ l) hdist
      rw [rankingSelectOf, hC]
      rfl
    · have hC : T = List.insertionSort (fun a b => key a ≤ key b) l :=
        sorted_perm_unique_asc key hpA (List.perm_insertionSort _ l) hsA
          (List.sorted_insertionSort _ l) hdist
      rw [rankingSelectOf, hC]
      rfl
  · intro hn
    have hSfull : rankingSelectOf S n = S :=
      List.take_of_length_le (by rw [hlenS]; exact hn)
    have hTfull : rankingSelectOf T n = T :=
      List.take_of_length_le (by rw [hlenT]; exact hn)
    rw [hSfull, hTfull]
    haveI : IsAntisymm ℚ (fun a b => b ≤ a) :=
      ⟨fun a b h1 h2 => le_antisymm h2 h1⟩
    have h1 : (T.map key).reverse.Pairwise (fun a b : ℚ => b ≤ a) :=
      List.pairwise_reverse.mpr (List.pairwise_map.mpr hsA)
    have h2 : (S.map key).Pairwise (fun a b : ℚ => b ≤ a) :=
      List.pairwise_map.mpr hsD
    have hp : (T.map key).reverse.Perm (S.map key) :=
      ((List.reverse_perm _).trans (hpA.map key)).trans (hpD.map key).symm
    exact List.eq_of_perm_of_sorted hp h1 h2
  · intro hn x
    have hSfull : rankingSelectOf S n = S :=
      List.take_of_length_le (by rw [hlenS]; exact hn)
    have hTfull : rankingSelectOf T n = T :=
      List.take_of_length_le (by rw [hlenT]; exact hn)
    rw [hSfull, hTfull, hpD.mem_iff, hpA.mem_iff]

/-- C8 witness: the table `[1, 2, 3]` with `S = [3, 2, 1]`, `T = [1, 2, 3]`
and `n = 3`. -/
theorem ranking_selector_properties_witness :
    (rankingSelectOf [(3 : ℚ), 2, 1] 3).length = min 3 ([(1 : ℚ), 2, 3]).length ∧
    ((rankingSelectOf [(3 : ℚ), 2, 1] 3).map (fun x : ℚ => x)).Pairwise
      (fun a b => b ≤ a) ∧
    ((rankingSelectOf [(1 : ℚ), 2, 3] 3).map (fun x : ℚ => x)).Pairwise
      (fun a b => a ≤ b) ∧
    (∀ x ∈ rankingSelectOf [(3 : ℚ), 2, 1] 3, x ∈ ([(1 : ℚ), 2, 3] : List ℚ)) ∧
    (∀ x ∈ rankingSelectOf [(1 : ℚ), 2, 3] 3, x ∈ ([(1 : ℚ), 2, 3] : List ℚ)) ∧
    ((([(1 : ℚ), 2, 3] : List ℚ).map (fun x : ℚ => x)).Pairwise (fun a b => a ≠ b) →
      rankingSelectOf [(3 : ℚ), 2, 1] 3 =
          rankingSelect true (fun x : ℚ => x) 3 [1, 2, 3] ∧
      rankingSelectOf [(1 : ℚ), 2, 3] 3 =
          rankingSelect false (fun x : ℚ => x) 3 [1, 2, 3]) ∧
    (([(1 : ℚ), 2, 3] : List ℚ).length ≤ 3 →
      ((rankingSelectOf [(1 : ℚ), 2, 3] 3).map (fun x : ℚ => x)).reverse =
        (rankingSelectOf [(3 : ℚ), 2, 1] 3).map (fun x : ℚ => x)) ∧
    (([(1 : ℚ), 2, 3] : List ℚ).length ≤ 3 →
      ∀ x, x ∈ rankingSelectOf [(3 : ℚ), 2, 1] 3 ↔
        x ∈ rankingSelectOf [(1 : ℚ), 2, 3] 3) :=
  ranking_selector_properties (fun x : ℚ => x) [1, 2, 3] [3, 2, 1] [1, 2, 3] 3
    (by decide) (by decide) (by decide) (by decide)

/-- C10 witness: totality on the nondegenerate range `[0, 1]` (where the
division happens) and the orange pin on the degenerate range `[1, 1]`. -/
theorem get_color_total_witness :
    (get_color (some 3) 0 1 = "gray" ∨ get_color (some 3) 0 1 = "blue" ∨
      get_color (some 3) 0 1 = "orange" ∨ get_color (some 3) 0 1 = "red") ∧
    get_color none 0 1 = "gray" ∧
    get_color (some 3) 1 1 = "orange" :=
  ⟨(get_color_total (some 3) 0 1 3).1, (get_color_total (some 3) 0 1 3).2.1,
    (get_color_total (some 3) 1 1 3).2.2 rfl⟩

end WellsApp
